import Mathlib

/-!
Verification development for the forbid-junk-object-types linter.

The definitions below are a shallow embedding of the TypeScript sources:
the violation classifier (analyzer.ts: isSingleUseType, hasLegitimateReason,
findViolations), the two inline-object detectors (inline-types.ts:
collectInlineObjectTypes and inline-detector.ts: collectInlineObjectViolations),
the suppression store (suppression.ts) and the changed-files selection
(git.ts getChangedFiles and cli.ts getChangedFilesForCheck).

JavaScript objects used as string-keyed records are embedded as association
lists with first-match lookup and replace-or-append assignment; JS Map values
in insertion order are embedded as plain lists.  The file system and
JSON.parse / JSON.stringify appear at the value level: a stored file either
holds a well-formed JSON value or malformed text.
-/

/-- The single-quote character, used when the source interpolates a name
into a context label such as `parameter ...`. -/
def sQuote : String := "\x27"

/-- First-match lookup in a string-keyed association list; embeds reading a
property of a JS record (absent key = undefined = `Option.none`). -/
def alistGet? {β : Type} : List (String × β) → String → Option β
  | [], _ => none
  | (a, b) :: t, k => if a = k then some b else alistGet? t k

/-- Property assignment on a JS record: replace the value of an existing key
in place, or append a fresh key at the end. -/
def alistSet {β : Type} : List (String × β) → String → β → List (String × β)
  | [], k, v => [(k, v)]
  | (a, b) :: t, k, v => if a = k then (a, v) :: t else (a, b) :: alistSet t k v

/-- In-place update of the value stored under an existing key (no-op when the
key is absent); embeds mutating a nested JS record that was just ensured to
exist. -/
def alistUpdate {β : Type} : List (String × β) → String → (β → β) → List (String × β)
  | [], _, _ => []
  | (a, b) :: t, k, f => if a = k then (a, f b) :: t else (a, b) :: alistUpdate t k f

/-- Character-list prefix test (the string library versions of these
operations go through byte positions, so the embedding works on the
underlying character lists throughout). -/
def charsPrefix : List Char → List Char → Bool
  | [], _ => true
  | _ :: _, [] => false
  | a :: as, b :: bs => a == b && charsPrefix as bs

/-- Character-list infix test used by `strContains`. -/
def charsInfix : List Char → List Char → Bool
  | needle, [] => needle.isEmpty
  | needle, c :: t => charsPrefix needle (c :: t) || charsInfix needle t

/-- Substring test; embeds the JS `String.prototype.includes` calls of
git.ts. -/
def strContains (s sub : String) : Bool :=
  charsInfix sub.data s.data

/-- Prefix test on strings; embeds JS `String.prototype.startsWith`. -/
def strStartsWith (s pre : String) : Bool :=
  charsPrefix pre.data s.data

/-- Suffix test on strings; embeds JS `String.prototype.endsWith`. -/
def strEndsWith (s post : String) : Bool :=
  charsPrefix post.data.reverse s.data.reverse

/-- Drop the first `n` characters of a string. -/
def strDropChars (s : String) (n : Nat) : String :=
  String.mk (s.data.drop n)

/-- Model of Node `path.relative(fromDir, toPath)` for the cases the linter
exercises: the violation path equals the target directory or lies beneath it.
Unrelated paths are returned unchanged; every embedded function uses this same
model on both the write and the read path, so the theorems below do not depend
on its behaviour outside that case. -/
def pathRelative (fromDir toPath : String) : String :=
  if toPath = fromDir then ""
  else if strStartsWith toPath (fromDir ++ "/") then strDropChars toPath (fromDir.length + 1)
  else toPath

/-- Model of Node `path.join(a, b)` for a non-empty relative second part. -/
def pathJoin (a b : String) : String := a ++ "/" ++ b

/-- Whitespace in the sense of JS `String.prototype.trim` at the characters
git output contains. -/
def isWhitespaceChar (c : Char) : Bool :=
  c == ' ' || c == '\n' || c == '\t' || c == '\r'

/-- Trim leading and trailing whitespace; embeds JS `trim`. -/
def strTrim (s : String) : String :=
  String.mk (((s.data.dropWhile isWhitespaceChar).reverse.dropWhile
    isWhitespaceChar).reverse)

/-- Split a character list at every occurrence of a separator character. -/
def splitOnChar (c : Char) : List Char → List (List Char)
  | [] => [[]]
  | x :: xs =>
    let r := splitOnChar c xs
    if x == c then [] :: r
    else
      match r with
      | [] => [[x]]
      | h :: t => (x :: h) :: t

/-- Split a string on newline characters; embeds the JS `split` call of
git.ts. -/
def strSplitNl (s : String) : List String :=
  (splitOnChar '\n' s.data).map (fun l => String.mk l)

/-! ## Data model (types.ts) -/

/-- The usage-context discriminant of a TypeUsage record. -/
inductive UsageContext where
  | functionParam
  | functionReturn
  | variable
  | property
  | genericArg
deriving DecidableEq

/-- types.ts TypeUsage: one reference to a named type at a use-site.
`functionName` is the optional enclosing-function attribution. -/
structure TypeUsage where
  typeName : String
  usageContext : UsageContext
  functionName : Option String
  filePath : String
  line : Nat
deriving DecidableEq

/-- The kind discriminant of a TypeDefinition (interface or type alias). -/
inductive TypeDefKind where
  | interface
  | type
deriving DecidableEq

/-- types.ts TypeDefinition.  The source record stores the declaration node
itself; the only use the classifier makes of that node is `extendsOtherType`,
which reads `node.heritageClauses` on interface declarations, so the node is
embedded here by `heritageClauses`: `Option.none` when the property is absent
on the declaration, `some n` for a present clause list of length `n`. -/
structure TypeDefinition where
  name : String
  kind : TypeDefKind
  filePath : String
  line : Nat
  column : Nat
  isExported : Bool
  heritageClauses : Option Nat
deriving DecidableEq

/-- types.ts Violation, single-use-named variant. -/
structure Violation where
  typeName : String
  filePath : String
  line : Nat
  column : Nat
  usedByFunction : String
deriving DecidableEq

/-- types.ts InlineTypeViolation (the inline-object variant carries the same
location and context fields plus a constant kind discriminant). -/
structure InlineTypeViolation where
  filePath : String
  line : Nat
  column : Nat
  context : String
deriving DecidableEq

/-! ## Violation classifier (analyzer.ts) -/

/-- JS truthiness of the optional `functionName` field: `undefined` and the
empty string are falsy. -/
def jsTruthy : Option String → Bool
  | none => false
  | some s => !(s == "")

/-- The distinct function-name attributions of a usage list:
`new Set(usages.filter(u => u.functionName).map(u => u.functionName))`,
embedded as truthy-filter, projection, and duplicate removal (only the
length of this list — the JS Set size — is ever consumed). -/
def distinctTruthyNames (usages : List TypeUsage) : List String :=
  ((usages.filter (fun u => jsTruthy u.functionName)).filterMap
    (fun u => u.functionName)).dedup

/-- analyzer.ts isSingleUseType: an empty usage list short-circuits to false,
otherwise the set of distinct truthy function-name attributions must have
size exactly one. -/
def isSingleUseType (_definition : TypeDefinition) (usages : List TypeUsage) : Bool :=
  if usages.isEmpty then false
  else (distinctTruthyNames usages).length == 1

/-- parser-utils.ts extendsOtherType: true only for an interface declaration
whose heritage-clause list is present and non-empty; a type alias never
qualifies. -/
def extendsOtherType (d : TypeDefinition) : Bool :=
  match d.kind, d.heritageClauses with
  | TypeDefKind.interface, some n => decide (0 < n)
  | TypeDefKind.interface, none => false
  | TypeDefKind.type, _ => false

/-- analyzer.ts hasLegitimateReason: exported, or extends another type, or
the name ends with the literal suffix Props.  (The source guards the
extends check with an interface-or-alias test on the stored node, which is
always true for collected definitions.) -/
def hasLegitimateReason (d : TypeDefinition) : Bool :=
  if d.isExported then true
  else if extendsOtherType d then true
  else if strEndsWith d.name "Props" then true
  else false

/-- JS `value || dflt` on an optional string: the default replaces both
`undefined` and the empty string. -/
def jsOrStr (v : Option String) (dflt : String) : String :=
  match v with
  | some s => if s = "" then dflt else s
  | none => dflt

/-- `usages.find(u => u.functionName)?.functionName || unknown` from the
violation construction in findViolations. -/
def firstAttributedName (usages : List TypeUsage) : String :=
  jsOrStr ((usages.find? (fun u => jsTruthy u.functionName)).bind
    (fun u => u.functionName)) "unknown"

/-- One iteration of the findViolations loop: the usage list is fetched from
the usage map by the exact definition name (`typeUsages.get(name) || []`),
and a single-use-named violation is emitted when the definition is
single-use and has no legitimate reason. -/
def violationForDefinition (umap : List (String × List TypeUsage))
    (d : TypeDefinition) : Option Violation :=
  let usages := (alistGet? umap d.name).getD []
  if isSingleUseType d usages && !hasLegitimateReason d then
    some ⟨d.name, d.filePath, d.line, d.column, firstAttributedName usages⟩
  else none

/-- analyzer.ts findViolations over the collected definition values (in
insertion order) and the name-keyed usage map. -/
def findViolations (defs : List TypeDefinition)
    (umap : List (String × List TypeUsage)) : List Violation :=
  defs.filterMap (violationForDefinition umap)

/-! ## Parse-tree embedding for the inline-object detectors

The detectors walk the parsed tree generically; only the node kinds their
predicates discriminate are modelled.  Function-like kinds are represented by
`functionDecl` (also standing for method declarations) and `arrowFunction`
(also standing for function expressions); the statement block of a body is
elided, its statements hang directly off the function node.  A type literal
carries its 1-based source position, embedding `getLineAndColumn`. -/

/-- A parameter or variable binding name: identifier, object destructuring
pattern, or array destructuring pattern. -/
inductive BindingName where
  | ident (name : String)
  | objectPattern
  | arrayPattern
deriving DecidableEq

/-- A property name: identifier or a non-identifier (computed / literal) name. -/
inductive PropName where
  | ident (name : String)
  | nonIdent
deriving DecidableEq

mutual
/-- The modelled parse-tree node kinds. -/
inductive TsNode where
  | typeLiteral (line column : Nat) (members : TsNodeList)
  | propertySignature (pname : PropName) (ty : TsNodeOpt)
  | propertyDeclaration (pname : PropName) (ty : TsNodeOpt)
  | parameter (binding : BindingName) (ty : TsNodeOpt)
  | functionDecl (fname : Option String) (typeParams : TsNodeList)
      (params : TsNodeList) (retTy : TsNodeOpt) (body : TsNodeList)
  | arrowFunction (typeParams : TsNodeList) (params : TsNodeList)
      (retTy : TsNodeOpt) (body : TsNodeList)
  | variableDeclaration (binding : BindingName) (ty : TsNodeOpt) (init : TsNodeOpt)
  | typeParameterDecl (tpname : String) (constraint : TsNodeOpt)
  | typeReference (refName : String) (typeArgs : TsNodeList)
  | asExpression (expr : TsNode) (ty : TsNode)
  | interfaceDecl (iname : String) (members : TsNodeList)
  | typeAliasDecl (aname : String) (ty : TsNode)
  | unionType (types : TsNodeList)
  | sourceFile (statements : TsNodeList)
/-- A list of tree nodes (a mutual member so that every traversal is
structurally recursive). -/
inductive TsNodeList where
  | nil
  | cons (head : TsNode) (tail : TsNodeList)
/-- An optional tree node (absent annotation slots). -/
inductive TsNodeOpt where
  | none
  | some (node : TsNode)
end

/-- How a node sits inside its parent.  `constraintSlot` marks the edge from a
type-parameter declaration to its constraint (the identity test
`parent.constraint === current` of the source walk); `typeArgSlot` marks an
edge into the type-argument list of a type reference (the identity test
`parent.typeArguments.includes(node)`); all remaining edges are `otherSlot`. -/
inductive Slot where
  | constraintSlot
  | typeArgSlot
  | otherSlot
deriving DecidableEq

/-- The ancestor chain of a node: closest parent first, each with the slot
through which the path descends from that parent.  This replaces the
`node.parent` pointers the source either finds pre-set (inline-types.ts) or
assigns manually during its own traversal (inline-detector.ts). -/
abbrev AncestorChain := List (TsNode × Slot)

/-- inline-types.ts isGenericConstraint: walk every ancestor and report
whether some step of the chain descends out of the constraint slot of a
type-parameter declaration. -/
def isGenericConstraint (chain : AncestorChain) : Bool :=
  chain.any (fun e =>
    match e with
    | (TsNode.typeParameterDecl _ _, Slot.constraintSlot) => true
    | _ => false)

/-- inline-types.ts getParameterContext: destructuring patterns get the fixed
label, identifiers are interpolated, anything else reads unknown. -/
def getParameterContext (binding : BindingName) : String :=
  match binding with
  | BindingName.objectPattern => "destructured parameter"
  | BindingName.ident n => "parameter " ++ sQuote ++ n ++ sQuote
  | BindingName.arrayPattern => "parameter " ++ sQuote ++ "unknown" ++ sQuote

/-- inline-types.ts getPropertyContext: identifier-named properties only. -/
def getPropertyContext (pname : PropName) : Option String :=
  match pname with
  | PropName.ident n => Option.some ("property " ++ sQuote ++ n ++ sQuote)
  | PropName.nonIdent => Option.none

/-- inline-types.ts getInlineTypeContext: classify a type literal by its
immediate parent only; an unrecognised parent yields no context (and, in
collectInlineObjectTypes, no violation). -/
def getInlineTypeContext (chain : AncestorChain) : Option String :=
  match chain with
  | [] => Option.none
  | (parent, slot) :: _ =>
    match parent, slot with
    | TsNode.parameter binding _, _ => Option.some (getParameterContext binding)
    | TsNode.functionDecl _ _ _ _ _, _ => Option.some "return type"
    | TsNode.arrowFunction _ _ _ _, _ => Option.some "return type"
    | TsNode.variableDeclaration (BindingName.ident n) _ _, _ =>
        Option.some ("variable " ++ sQuote ++ n ++ sQuote)
    | TsNode.asExpression _ _, _ => Option.some "type assertion"
    | TsNode.typeReference _ _, Slot.typeArgSlot => Option.some "generic argument"
    | TsNode.propertySignature pname _, _ => getPropertyContext pname
    | TsNode.propertyDeclaration pname _, _ => getPropertyContext pname
    | _, _ => Option.none

mutual
/-- The recursive visitor of inline-types.ts collectInlineObjectTypes: a type
literal whose ancestor chain passes through a generic constraint is skipped
(children still visited); otherwise a violation is pushed when the immediate
parent yields a context, and children are always visited. -/
def citVisit (fname : String) (chain : AncestorChain) : TsNode → List InlineTypeViolation
  | TsNode.typeLiteral l c members =>
    let child := ((TsNode.typeLiteral l c members, Slot.otherSlot) :: chain)
    if isGenericConstraint chain then citList fname child members
    else
      (match getInlineTypeContext chain with
       | Option.some ctx => [⟨fname, l, c, ctx⟩]
       | Option.none => []) ++ citList fname child members
  | TsNode.propertySignature pname ty =>
    citOpt fname ((TsNode.propertySignature pname ty, Slot.otherSlot) :: chain) ty
  | TsNode.propertyDeclaration pname ty =>
    citOpt fname ((TsNode.propertyDeclaration pname ty, Slot.otherSlot) :: chain) ty
  | TsNode.parameter binding ty =>
    citOpt fname ((TsNode.parameter binding ty, Slot.otherSlot) :: chain) ty
  | TsNode.functionDecl n tps ps r b =>
    let child := ((TsNode.functionDecl n tps ps r b, Slot.otherSlot) :: chain)
    citList fname child tps ++ citList fname child ps ++
      citOpt fname child r ++ citList fname child b
  | TsNode.arrowFunction tps ps r b =>
    let child := ((TsNode.arrowFunction tps ps r b, Slot.otherSlot) :: chain)
    citList fname child tps ++ citList fname child ps ++
      citOpt fname child r ++ citList fname child b
  | TsNode.variableDeclaration binding ty init =>
    let child := ((TsNode.variableDeclaration binding ty init, Slot.otherSlot) :: chain)
    citOpt fname child ty ++ citOpt fname child init
  | TsNode.typeParameterDecl n constraint =>
    citOpt fname ((TsNode.typeParameterDecl n constraint, Slot.constraintSlot) :: chain) constraint
  | TsNode.typeReference n args =>
    citList fname ((TsNode.typeReference n args, Slot.typeArgSlot) :: chain) args
  | TsNode.asExpression e ty =>
    let child := ((TsNode.asExpression e ty, Slot.otherSlot) :: chain)
    citVisit fname child e ++ citVisit fname child ty
  | TsNode.interfaceDecl n members =>
    citList fname ((TsNode.interfaceDecl n members, Slot.otherSlot) :: chain) members
  | TsNode.typeAliasDecl n ty =>
    citVisit fname ((TsNode.typeAliasDecl n ty, Slot.otherSlot) :: chain) ty
  | TsNode.unionType types =>
    citList fname ((TsNode.unionType types, Slot.otherSlot) :: chain) types
  | TsNode.sourceFile statements =>
    citList fname ((TsNode.sourceFile statements, Slot.otherSlot) :: chain) statements
/-- Child-list traversal of `citVisit` (ts.forEachChild over a node list). -/
def citList (fname : String) (chain : AncestorChain) : TsNodeList → List InlineTypeViolation
  | TsNodeList.nil => []
  | TsNodeList.cons x xs => citVisit fname chain x ++ citList fname chain xs
/-- Optional-child traversal of `citVisit`. -/
def citOpt (fname : String) (chain : AncestorChain) : TsNodeOpt → List InlineTypeViolation
  | TsNodeOpt.none => []
  | TsNodeOpt.some x => citVisit fname chain x
end

/-- inline-types.ts collectInlineObjectTypes, started on a source file with no
parent (`fname` embeds `sourceFile.fileName`). -/
def collectInlineObjectTypes (fname : String) (sf : TsNode) : List InlineTypeViolation :=
  citVisit fname [] sf

/-- inline-detector.ts isEmptyObjectType: `node.members.length === 0`. -/
def isEmptyObjectType (members : TsNodeList) : Bool :=
  match members with
  | TsNodeList.nil => true
  | TsNodeList.cons _ _ => false

/-- inline-detector.ts getContextFromParentNode: classify by the nearest
ancestor of a recognised kind, recursing upwards past unrecognised parents,
with the fixed fall-back label once the chain is exhausted.  (The source also
computes an optional function name there; the emitted violation stores only
the description, which is what this embedding returns.) -/
def getContextFromParentNode : AncestorChain → String
  | [] => "unknown context"
  | (parent, _) :: rest =>
    match parent with
    | TsNode.parameter _ _ => "function parameter"
    | TsNode.functionDecl _ _ _ _ _ => "function return type"
    | TsNode.arrowFunction _ _ _ _ => "function return type"
    | TsNode.variableDeclaration _ _ _ => "variable declaration"
    | TsNode.propertyDeclaration _ _ => "property declaration"
    | TsNode.typeAliasDecl _ _ => "nested in type definition"
    | TsNode.interfaceDecl _ _ => "nested in type definition"
    | TsNode.asExpression _ _ => "type assertion"
    | _ => getContextFromParentNode rest

mutual
/-- The recursive visitor of inline-detector.ts collectInlineObjectViolations:
every non-empty type literal pushes one violation with the ancestor-classified
context, and children are always visited. -/
def detVisit (fname : String) (chain : AncestorChain) : TsNode → List InlineTypeViolation
  | TsNode.typeLiteral l c members =>
    let child := ((TsNode.typeLiteral l c members, Slot.otherSlot) :: chain)
    (if isEmptyObjectType members then []
     else [⟨fname, l, c, getContextFromParentNode chain⟩]) ++ detList fname child members
  | TsNode.propertySignature pname ty =>
    detOpt fname ((TsNode.propertySignature pname ty, Slot.otherSlot) :: chain) ty
  | TsNode.propertyDeclaration pname ty =>
    detOpt fname ((TsNode.propertyDeclaration pname ty, Slot.otherSlot) :: chain) ty
  | TsNode.parameter binding ty =>
    detOpt fname ((TsNode.parameter binding ty, Slot.otherSlot) :: chain) ty
  | TsNode.functionDecl n tps ps r b =>
    let child := ((TsNode.functionDecl n tps ps r b, Slot.otherSlot) :: chain)
    detList fname child tps ++ detList fname child ps ++
      detOpt fname child r ++ detList fname child b
  | TsNode.arrowFunction tps ps r b =>
    let child := ((TsNode.arrowFunction tps ps r b, Slot.otherSlot) :: chain)
    detList fname child tps ++ detList fname child ps ++
      detOpt fname child r ++ detList fname child b
  | TsNode.variableDeclaration binding ty init =>
    let child := ((TsNode.variableDeclaration binding ty init, Slot.otherSlot) :: chain)
    detOpt fname child ty ++ detOpt fname child init
  | TsNode.typeParameterDecl n constraint =>
    detOpt fname ((TsNode.typeParameterDecl n constraint, Slot.constraintSlot) :: chain) constraint
  | TsNode.typeReference n args =>
    detList fname ((TsNode.typeReference n args, Slot.typeArgSlot) :: chain) args
  | TsNode.asExpression e ty =>
    let child := ((TsNode.asExpression e ty, Slot.otherSlot) :: chain)
    detVisit fname child e ++ detVisit fname child ty
  | TsNode.interfaceDecl n members =>
    detList fname ((TsNode.interfaceDecl n members, Slot.otherSlot) :: chain) members
  | TsNode.typeAliasDecl n ty =>
    detVisit fname ((TsNode.typeAliasDecl n ty, Slot.otherSlot) :: chain) ty
  | TsNode.unionType types =>
    detList fname ((TsNode.unionType types, Slot.otherSlot) :: chain) types
  | TsNode.sourceFile statements =>
    detList fname ((TsNode.sourceFile statements, Slot.otherSlot) :: chain) statements
/-- Child-list traversal of `detVisit`. -/
def detList (fname : String) (chain : AncestorChain) : TsNodeList → List InlineTypeViolation
  | TsNodeList.nil => []
  | TsNodeList.cons x xs => detVisit fname chain x ++ detList fname chain xs
/-- Optional-child traversal of `detVisit`. -/
def detOpt (fname : String) (chain : AncestorChain) : TsNodeOpt → List InlineTypeViolation
  | TsNodeOpt.none => []
  | TsNodeOpt.some x => detVisit fname chain x
end

/-- inline-detector.ts collectInlineObjectViolations, started on a source file
with no parent. -/
def collectInlineObjectViolations (fname : String) (sf : TsNode) : List InlineTypeViolation :=
  detVisit fname [] sf

/-! ## Per-literal characterisation apparatus

`enumLits` lists every type-literal occurrence of a tree together with its
source position, member-emptiness and ancestor chain, in the order the
detectors visit them.  Each detector is then proved equal to a filterMap of a
per-occurrence emission rule over this enumeration. -/

/-- One type-literal occurrence: position, whether its member list is empty,
and its ancestor chain. -/
structure LitOcc where
  line : Nat
  column : Nat
  membersEmpty : Bool
  chain : AncestorChain

mutual
/-- Enumerate all type-literal occurrences of a node, in visit order. -/
def enumLits (chain : AncestorChain) : TsNode → List LitOcc
  | TsNode.typeLiteral l c members =>
    let child := ((TsNode.typeLiteral l c members, Slot.otherSlot) :: chain)
    ⟨l, c, isEmptyObjectType members, chain⟩ :: enumLitsList child members
  | TsNode.propertySignature pname ty =>
    enumLitsOpt ((TsNode.propertySignature pname ty, Slot.otherSlot) :: chain) ty
  | TsNode.propertyDeclaration pname ty =>
    enumLitsOpt ((TsNode.propertyDeclaration pname ty, Slot.otherSlot) :: chain) ty
  | TsNode.parameter binding ty =>
    enumLitsOpt ((TsNode.parameter binding ty, Slot.otherSlot) :: chain) ty
  | TsNode.functionDecl n tps ps r b =>
    let child := ((TsNode.functionDecl n tps ps r b, Slot.otherSlot) :: chain)
    enumLitsList child tps ++ enumLitsList child ps ++
      enumLitsOpt child r ++ enumLitsList child b
  | TsNode.arrowFunction tps ps r b =>
    let child := ((TsNode.arrowFunction tps ps r b, Slot.otherSlot) :: chain)
    enumLitsList child tps ++ enumLitsList child ps ++
      enumLitsOpt child r ++ enumLitsList child b
  | TsNode.variableDeclaration binding ty init =>
    let child := ((TsNode.variableDeclaration binding ty init, Slot.otherSlot) :: chain)
    enumLitsOpt child ty ++ enumLitsOpt child init
  | TsNode.typeParameterDecl n constraint =>
    enumLitsOpt ((TsNode.typeParameterDecl n constraint, Slot.constraintSlot) :: chain) constraint
  | TsNode.typeReference n args =>
    enumLitsList ((TsNode.typeReference n args, Slot.typeArgSlot) :: chain) args
  | TsNode.asExpression e ty =>
    let child := ((TsNode.asExpression e ty, Slot.otherSlot) :: chain)
    enumLits child e ++ enumLits child ty
  | TsNode.interfaceDecl n members =>
    enumLitsList ((TsNode.interfaceDecl n members, Slot.otherSlot) :: chain) members
  | TsNode.typeAliasDecl n ty =>
    enumLits ((TsNode.typeAliasDecl n ty, Slot.otherSlot) :: chain) ty
  | TsNode.unionType types =>
    enumLitsList ((TsNode.unionType types, Slot.otherSlot) :: chain) types
  | TsNode.sourceFile statements =>
    enumLitsList ((TsNode.sourceFile statements, Slot.otherSlot) :: chain) statements
/-- List version of `enumLits`. -/
def enumLitsList (chain : AncestorChain) : TsNodeList → List LitOcc
  | TsNodeList.nil => []
  | TsNodeList.cons x xs => enumLits chain x ++ enumLitsList chain xs
/-- Optional version of `enumLits`. -/
def enumLitsOpt (chain : AncestorChain) : TsNodeOpt → List LitOcc
  | TsNodeOpt.none => []
  | TsNodeOpt.some x => enumLits chain x
end

/-- Per-occurrence emission rule of collectInlineObjectTypes: a literal on a
constraint-bearing ancestor chain emits nothing, otherwise it emits exactly
when its immediate parent yields a context. -/
def citEmit (fname : String) (occ : LitOcc) : Option InlineTypeViolation :=
  if isGenericConstraint occ.chain then Option.none
  else (getInlineTypeContext occ.chain).map
    (fun ctx => ⟨fname, occ.line, occ.column, ctx⟩)

/-- The classification a single ancestor entry offers to
getContextFromParentNode, or nothing for an unrecognised kind. -/
def matchEntry : TsNode × Slot → Option String
  | (parent, _) =>
    match parent with
    | TsNode.parameter _ _ => Option.some "function parameter"
    | TsNode.functionDecl _ _ _ _ _ => Option.some "function return type"
    | TsNode.arrowFunction _ _ _ _ => Option.some "function return type"
    | TsNode.variableDeclaration _ _ _ => Option.some "variable declaration"
    | TsNode.propertyDeclaration _ _ => Option.some "property declaration"
    | TsNode.typeAliasDecl _ _ => Option.some "nested in type definition"
    | TsNode.interfaceDecl _ _ => Option.some "nested in type definition"
    | TsNode.asExpression _ _ => Option.some "type assertion"
    | _ => Option.none

/-- First-match reading of the ancestor classification: the label of the
nearest recognised ancestor, or the fall-back label on an exhausted chain. -/
def contextSpec (chain : AncestorChain) : String :=
  (chain.findSome? matchEntry).getD "unknown context"

/-- Per-occurrence emission rule of collectInlineObjectViolations: every
non-empty literal emits one violation labelled by the nearest recognised
ancestor (fall-back label when none matches). -/
def detEmit (fname : String) (occ : LitOcc) : Option InlineTypeViolation :=
  if occ.membersEmpty then Option.none
  else Option.some ⟨fname, occ.line, occ.column, contextSpec occ.chain⟩

/-- The source recursion of getContextFromParentNode computes exactly the
first-match classification with fall-back. -/
def getContextFromParentNode_eq_spec :
    (chain : AncestorChain) → getContextFromParentNode chain = contextSpec chain
  | [] => rfl
  | (parent, slot) :: rest => by
    have ih := getContextFromParentNode_eq_spec rest
    cases parent <;>
      simp [getContextFromParentNode, contextSpec, matchEntry, List.findSome?_cons, ih]

mutual
/-- collectInlineObjectTypes equals the per-occurrence rule `citEmit` mapped
over the literal enumeration (node level). -/
def citVisit_eq (fname : String) : (t : TsNode) → (chain : AncestorChain) →
    citVisit fname chain t = (enumLits chain t).filterMap (citEmit fname)
  | TsNode.typeLiteral l c members, chain => by
    have ih := citList_eq fname members
      ((TsNode.typeLiteral l c members, Slot.otherSlot) :: chain)
    cases h : isGenericConstraint chain with
    | true =>
      simp [citVisit, enumLits, citEmit, h, List.filterMap_cons, ih]
    | false =>
      cases hctx : getInlineTypeContext chain <;>
        simp [citVisit, enumLits, citEmit, h, hctx, List.filterMap_cons, ih]
  | TsNode.propertySignature pname ty, chain => by
    have ih := citOpt_eq fname ty
      ((TsNode.propertySignature pname ty, Slot.otherSlot) :: chain)
    simp [citVisit, enumLits, ih]
  | TsNode.propertyDeclaration pname ty, chain => by
    have ih := citOpt_eq fname ty
      ((TsNode.propertyDeclaration pname ty, Slot.otherSlot) :: chain)
    simp [citVisit, enumLits, ih]
  | TsNode.parameter binding ty, chain => by
    have ih := citOpt_eq fname ty
      ((TsNode.parameter binding ty, Slot.otherSlot) :: chain)
    simp [citVisit, enumLits, ih]
  | TsNode.functionDecl n tps ps r b, chain => by
    have ih1 := citList_eq fname tps
      ((TsNode.functionDecl n tps ps r b, Slot.otherSlot) :: chain)
    have ih2 := citList_eq fname ps
      ((TsNode.functionDecl n tps ps r b, Slot.otherSlot) :: chain)
    have ih3 := citOpt_eq fname r
      ((TsNode.functionDecl n tps ps r b, Slot.otherSlot) :: chain)
    have ih4 := citList_eq fname b
      ((TsNode.functionDecl n tps ps r b, Slot.otherSlot) :: chain)
    simp [citVisit, enumLits, List.filterMap_append, ih1, ih2, ih3, ih4]
  | TsNode.arrowFunction tps ps r b, chain => by
    have ih1 := citList_eq fname tps
      ((TsNode.arrowFunction tps ps r b, Slot.otherSlot) :: chain)
    have ih2 := citList_eq fname ps
      ((TsNode.arrowFunction tps ps r b, Slot.otherSlot) :: chain)
    have ih3 := citOpt_eq fname r
      ((TsNode.arrowFunction tps ps r b, Slot.otherSlot) :: chain)
    have ih4 := citList_eq fname b
      ((TsNode.arrowFunction tps ps r b, Slot.otherSlot) :: chain)
    simp [citVisit, enumLits, List.filterMap_append, ih1, ih2, ih3, ih4]
  | TsNode.variableDeclaration binding ty init, chain => by
    have ih1 := citOpt_eq fname ty
      ((TsNode.variableDeclaration binding ty init, Slot.otherSlot) :: chain)
    have ih2 := citOpt_eq fname init
      ((TsNode.variableDeclaration binding ty init, Slot.otherSlot) :: chain)
    simp [citVisit, enumLits, List.filterMap_append, ih1, ih2]
  | TsNode.typeParameterDecl n constraint, chain => by
    have ih := citOpt_eq fname constraint
      ((TsNode.typeParameterDecl n constraint, Slot.constraintSlot) :: chain)
    simp [citVisit, enumLits, ih]
  | TsNode.typeReference n args, chain => by
    have ih := citList_eq fname args
      ((TsNode.typeReference n args, Slot.typeArgSlot) :: chain)
    simp [citVisit, enumLits, ih]
  | TsNode.asExpression e ty, chain => by
    have ih1 := citVisit_eq fname e
      ((TsNode.asExpression e ty, Slot.otherSlot) :: chain)
    have ih2 := citVisit_eq fname ty
      ((TsNode.asExpression e ty, Slot.otherSlot) :: chain)
    simp [citVisit, enumLits, List.filterMap_append, ih1, ih2]
  | TsNode.interfaceDecl n members, chain => by
    have ih := citList_eq fname members
      ((TsNode.interfaceDecl n members, Slot.otherSlot) :: chain)
    simp [citVisit, enumLits, ih]
  | TsNode.typeAliasDecl n ty, chain => by
    have ih := citVisit_eq fname ty
      ((TsNode.typeAliasDecl n ty, Slot.otherSlot) :: chain)
    simp [citVisit, enumLits, ih]
  | TsNode.unionType types, chain => by
    have ih := citList_eq fname types
      ((TsNode.unionType types, Slot.otherSlot) :: chain)
    simp [citVisit, enumLits, ih]
  | TsNode.sourceFile statements, chain => by
    have ih := citList_eq fname statements
      ((TsNode.sourceFile statements, Slot.otherSlot) :: chain)
    simp [citVisit, enumLits, ih]
/-- collectInlineObjectTypes equals the per-occurrence rule (list level). -/
def citList_eq (fname : String) : (l : TsNodeList) → (chain : AncestorChain) →
    citList fname chain l = (enumLitsList chain l).filterMap (citEmit fname)
  | TsNodeList.nil, _ => by simp [citList, enumLitsList]
  | TsNodeList.cons x xs, chain => by
    have ih1 := citVisit_eq fname x chain
    have ih2 := citList_eq fname xs chain
    simp [citList, enumLitsList, List.filterMap_append, ih1, ih2]
/-- collectInlineObjectTypes equals the per-occurrence rule (option level). -/
def citOpt_eq (fname : String) : (o : TsNodeOpt) → (chain : AncestorChain) →
    citOpt fname chain o = (enumLitsOpt chain o).filterMap (citEmit fname)
  | TsNodeOpt.none, _ => by simp [citOpt, enumLitsOpt]
  | TsNodeOpt.some x, chain => by
    have ih := citVisit_eq fname x chain
    simp [citOpt, enumLitsOpt, ih]
end

mutual
/-- collectInlineObjectViolations equals the per-occurrence rule `detEmit`
mapped over the literal enumeration (node level). -/
def detVisit_eq (fname : String) : (t : TsNode) → (chain : AncestorChain) →
    detVisit fname chain t = (enumLits chain t).filterMap (detEmit fname)
  | TsNode.typeLiteral l c members, chain => by
    have ih := detList_eq fname members
      ((TsNode.typeLiteral l c members, Slot.otherSlot) :: chain)
    have hc := getContextFromParentNode_eq_spec chain
    cases h : isEmptyObjectType members <;>
      simp [detVisit, enumLits, detEmit, h, List.filterMap_cons, ih, hc]
  | TsNode.propertySignature pname ty, chain => by
    have ih := detOpt_eq fname ty
      ((TsNode.propertySignature pname ty, Slot.otherSlot) :: chain)
    simp [detVisit, enumLits, ih]
  | TsNode.propertyDeclaration pname ty, chain => by
    have ih := detOpt_eq fname ty
      ((TsNode.propertyDeclaration pname ty, Slot.otherSlot) :: chain)
    simp [detVisit, enumLits, ih]
  | TsNode.parameter binding ty, chain => by
    have ih := detOpt_eq fname ty
      ((TsNode.parameter binding ty, Slot.otherSlot) :: chain)
    simp [detVisit, enumLits, ih]
  | TsNode.functionDecl n tps ps r b, chain => by
    have ih1 := detList_eq fname tps
      ((TsNode.functionDecl n tps ps r b, Slot.otherSlot) :: chain)
    have ih2 := detList_eq fname ps
      ((TsNode.functionDecl n tps ps r b, Slot.otherSlot) :: chain)
    have ih3 := detOpt_eq fname r
      ((TsNode.functionDecl n tps ps r b, Slot.otherSlot) :: chain)
    have ih4 := detList_eq fname b
      ((TsNode.functionDecl n tps ps r b, Slot.otherSlot) :: chain)
    simp [detVisit, enumLits, List.filterMap_append, ih1, ih2, ih3, ih4]
  | TsNode.arrowFunction tps ps r b, chain => by
    have ih1 := detList_eq fname tps
      ((TsNode.arrowFunction tps ps r b, Slot.otherSlot) :: chain)
    have ih2 := detList_eq fname ps
      ((TsNode.arrowFunction tps ps r b, Slot.otherSlot) :: chain)
    have ih3 := detOpt_eq fname r
      ((TsNode.arrowFunction tps ps r b, Slot.otherSlot) :: chain)
    have ih4 := detList_eq fname b
      ((TsNode.arrowFunction tps ps r b, Slot.otherSlot) :: chain)
    simp [detVisit, enumLits, List.filterMap_append, ih1, ih2, ih3, ih4]
  | TsNode.variableDeclaration binding ty init, chain => by
    have ih1 := detOpt_eq fname ty
      ((TsNode.variableDeclaration binding ty init, Slot.otherSlot) :: chain)
    have ih2 := detOpt_eq fname init
      ((TsNode.variableDeclaration binding ty init, Slot.otherSlot) :: chain)
    simp [detVisit, enumLits, List.filterMap_append, ih1, ih2]
  | TsNode.typeParameterDecl n constraint, chain => by
    have ih := detOpt_eq fname constraint
      ((TsNode.typeParameterDecl n constraint, Slot.constraintSlot) :: chain)
    simp [detVisit, enumLits, ih]
  | TsNode.typeReference n args, chain => by
    have ih := detList_eq fname args
      ((TsNode.typeReference n args, Slot.typeArgSlot) :: chain)
    simp [detVisit, enumLits, ih]
  | TsNode.asExpression e ty, chain => by
    have ih1 := detVisit_eq fname e
      ((TsNode.asExpression e ty, Slot.otherSlot) :: chain)
    have ih2 := detVisit_eq fname ty
      ((TsNode.asExpression e ty, Slot.otherSlot) :: chain)
    simp [detVisit, enumLits, List.filterMap_append, ih1, ih2]
  | TsNode.interfaceDecl n members, chain => by
    have ih := detList_eq fname members
      ((TsNode.interfaceDecl n members, Slot.otherSlot) :: chain)
    simp [detVisit, enumLits, ih]
  | TsNode.typeAliasDecl n ty, chain => by
    have ih := detVisit_eq fname ty
      ((TsNode.typeAliasDecl n ty, Slot.otherSlot) :: chain)
    simp [detVisit, enumLits, ih]
  | TsNode.unionType types, chain => by
    have ih := detList_eq fname types
      ((TsNode.unionType types, Slot.otherSlot) :: chain)
    simp [detVisit, enumLits, ih]
  | TsNode.sourceFile statements, chain => by
    have ih := detList_eq fname statements
      ((TsNode.sourceFile statements, Slot.otherSlot) :: chain)
    simp [detVisit, enumLits, ih]
/-- collectInlineObjectViolations equals the per-occurrence rule (list level). -/
def detList_eq (fname : String) : (l : TsNodeList) → (chain : AncestorChain) →
    detList fname chain l = (enumLitsList chain l).filterMap (detEmit fname)
  | TsNodeList.nil, _ => by simp [detList, enumLitsList]
  | TsNodeList.cons x xs, chain => by
    have ih1 := detVisit_eq fname x chain
    have ih2 := detList_eq fname xs chain
    simp [detList, enumLitsList, List.filterMap_append, ih1, ih2]
/-- collectInlineObjectViolations equals the per-occurrence rule (option level). -/
def detOpt_eq (fname : String) : (o : TsNodeOpt) → (chain : AncestorChain) →
    detOpt fname chain o = (enumLitsOpt chain o).filterMap (detEmit fname)
  | TsNodeOpt.none, _ => by simp [detOpt, enumLitsOpt]
  | TsNodeOpt.some x, chain => by
    have ih := detVisit_eq fname x chain
    simp [detOpt, enumLitsOpt, ih]
end

/-! ## Suppression store (suppression.ts) -/

/-- types.ts SuppressionEntry: an optional free-text reason. -/
structure SuppressionEntry where
  reason : Option String
deriving DecidableEq

/-- The per-file lookup-key to entry record. -/
abbrev FileSuppressions := List (String × SuppressionEntry)

/-- types.ts SuppressionFile: relative file path to per-file suppressions. -/
abbrev SuppressionFile := List (String × FileSuppressions)

/-- Two-level lookup in a suppression mapping. -/
def suppGet2 (s : SuppressionFile) (fp key : String) : Option SuppressionEntry :=
  (alistGet? s fp).bind (fun f => alistGet? f key)

/-- suppression.ts isSuppressed: relativise the violation path against the
target directory, then test key presence of the bare type name (an absent
per-file record is not suppressed). -/
def isSuppressed (v : Violation) (suppressions : SuppressionFile)
    (targetDir : String) : Bool :=
  match alistGet? suppressions (pathRelative targetDir v.filePath) with
  | none => false
  | some fileSuppressions => (alistGet? fileSuppressions v.typeName).isSome

/-- The constant reason text generateSuppressionsForAll writes. -/
def autoReason : String := "Auto-suppressed - add explanation here"

/-- One iteration of the generateSuppressionsForAll loop: ensure the per-file
record exists, then assign the bare type name. -/
def genStep (targetDir : String) (acc : SuppressionFile) (v : Violation) :
    SuppressionFile :=
  let rel := pathRelative targetDir v.filePath
  let acc1 := match alistGet? acc rel with
    | some _ => acc
    | none => alistSet acc rel []
  alistUpdate acc1 rel (fun cur => alistSet cur v.typeName ⟨some autoReason⟩)

/-- suppression.ts generateSuppressionsForAll. -/
def generateSuppressionsForAll (violations : List Violation)
    (targetDir : String) : SuppressionFile :=
  violations.foldl (genStep targetDir) []

/-- Inner loop of mergeSuppressions: copy a key only when it is absent
(an existing entry is never overwritten, entry records being JS-truthy). -/
def mergeInnerStep (acc : FileSuppressions) (kv : String × SuppressionEntry) :
    FileSuppressions :=
  match alistGet? acc kv.1 with
  | some _ => acc
  | none => alistSet acc kv.1 kv.2

/-- Outer loop of mergeSuppressions: ensure the per-file record exists, then
fold the incoming keys through `mergeInnerStep`. -/
def mergeFileStep (acc : SuppressionFile) (fv : String × FileSuppressions) :
    SuppressionFile :=
  let acc1 := match alistGet? acc fv.1 with
    | some _ => acc
    | none => alistSet acc fv.1 []
  alistUpdate acc1 fv.1 (fun cur => fv.2.foldl mergeInnerStep cur)

/-- suppression.ts mergeSuppressions, starting from a copy of `existing`. -/
def mergeSuppressions (existing news : SuppressionFile) : SuppressionFile :=
  news.foldl mergeFileStep existing

/-- suppression.ts isInlineSuppressed: the lookup-key on the read path is the
literal text inline: followed by line, a colon, and column. -/
def isInlineSuppressed (v : InlineTypeViolation) (suppressions : SuppressionFile)
    (targetDir : String) : Bool :=
  let rel := pathRelative targetDir v.filePath
  let key := "inline:" ++ toString v.line ++ ":" ++ toString v.column
  match alistGet? suppressions rel with
  | none => false
  | some fileSuppressions => (alistGet? fileSuppressions key).isSome

/-- One iteration of the generateInlineSuppressions loop: the same
inline-prefixed key on the write path, with the context as the reason. -/
def genInlineStep (targetDir : String) (acc : SuppressionFile)
    (v : InlineTypeViolation) : SuppressionFile :=
  let rel := pathRelative targetDir v.filePath
  let key := "inline:" ++ toString v.line ++ ":" ++ toString v.column
  let acc1 := match alistGet? acc rel with
    | some _ => acc
    | none => alistSet acc rel []
  alistUpdate acc1 rel (fun cur => alistSet cur key ⟨some v.context⟩)

/-- suppression.ts generateInlineSuppressions. -/
def generateInlineSuppressions (violations : List InlineTypeViolation)
    (targetDir : String) : SuppressionFile :=
  violations.foldl (genInlineStep targetDir) []

/-! ## Persistence (JSON values and the file system boundary) -/

/-- JSON values at the shapes the suppression file uses. -/
inductive JsonValue where
  | str (s : String)
  | obj (fields : List (String × JsonValue))

/-- JSON.stringify of a SuppressionEntry: an absent reason serialises to an
empty record (undefined properties are omitted). -/
def entryToJson (e : SuppressionEntry) : JsonValue :=
  match e.reason with
  | some r => JsonValue.obj [("reason", JsonValue.str r)]
  | none => JsonValue.obj []

/-- Reading a parsed entry record back (JSON.parse performs no validation;
unexpected shapes read as a missing reason). -/
def entryOfJson : JsonValue → SuppressionEntry
  | JsonValue.obj [("reason", JsonValue.str r)] => ⟨some r⟩
  | _ => ⟨none⟩

/-- JSON.stringify of a per-file record. -/
def fileSupToJson (f : FileSuppressions) : JsonValue :=
  JsonValue.obj (f.map (fun kv => (kv.1, entryToJson kv.2)))

/-- Reading a parsed per-file record back. -/
def fileSupOfJson : JsonValue → FileSuppressions
  | JsonValue.obj fields => fields.map (fun kv => (kv.1, entryOfJson kv.2))
  | _ => []

/-- JSON.stringify of a whole suppression mapping. -/
def suppToJson (s : SuppressionFile) : JsonValue :=
  JsonValue.obj (s.map (fun kv => (kv.1, fileSupToJson kv.2)))

/-- Reading a parsed suppression mapping back. -/
def suppOfJson : JsonValue → SuppressionFile
  | JsonValue.obj fields => fields.map (fun kv => (kv.1, fileSupOfJson kv.2))
  | _ => []

/-- The content of a stored file, partitioned by parseability: either text
that parses to a JSON value, or malformed text. -/
inductive FileContent where
  | wellFormed (j : JsonValue)
  | malformed (text : String)

/-- JSON.parse at the value level: well-formed content yields its value,
malformed content raises a SyntaxError carrying the offending text. -/
def jsonParse : FileContent → Except String JsonValue
  | FileContent.wellFormed j => Except.ok j
  | FileContent.malformed t => Except.error ("Unexpected token in JSON: " ++ t)

/-- suppression.ts saveSuppressions: writes JSON.stringify of the mapping,
which is well-formed content parsing back to the serialised value. -/
def saveSuppressions (s : SuppressionFile) : FileContent :=
  FileContent.wellFormed (suppToJson s)

/-- suppression.ts loadSuppressions over a file system modelled as a partial
map from paths to contents: a missing file reads as the empty mapping
(existsSync short-circuit and the ENOENT branch), a parse failure is rethrown
as an error naming the offending path. -/
def loadSuppressions (suppressionPath : String)
    (fileSystem : String → Option FileContent) : Except String SuppressionFile :=
  match fileSystem suppressionPath with
  | none => Except.ok []
  | some content =>
    match jsonParse content with
    | Except.ok j => Except.ok (suppOfJson j)
    | Except.error m =>
      Except.error ("Failed to load suppressions from " ++ suppressionPath ++ ": " ++ m)

/-! ## Changed-files selection (git.ts and the cli entry) -/

/-- git.ts getChangedFiles: on a successful diff, split the output into
lines, keep the non-empty ones under the target directory with a TypeScript
suffix and no test, spec or declaration marker, and join them onto the repo
root; any thrown error is caught and yields the empty list (after a warning
that all files will be checked). -/
def getChangedFiles (repoRoot targetDir : String)
    (gitDiff : Except String String) : List String :=
  match gitDiff with
  | Except.error _ => []
  | Except.ok output =>
    let allChangedFiles := (strSplitNl (strTrim output)).filter (fun s => !(s == ""))
    let targetDirRelative := pathRelative repoRoot targetDir
    (((allChangedFiles.filter (fun f => strStartsWith f targetDirRelative)).filter
      (fun f => strEndsWith f ".ts" || strEndsWith f ".tsx")).filter
      (fun f => !(strContains f ".test.") && !(strContains f ".spec.") &&
        !(strEndsWith f ".d.ts"))).map (pathJoin repoRoot)

/-- The observable outcome of the cli getChangedFilesForCheck call:
terminate the process before any analysis, analyse the listed files, or fall
back (with a warning) to analysing the full file set. -/
inductive ChangedFilesDecision where
  | exitNoChanges
  | useFiles (files : List String)
  | fallbackAll
deriving DecidableEq

/-- cli.ts getChangedFilesForCheck: a throw from findRepoRoot reaches the
catch and falls back to the full file set; otherwise an empty changed-file
list prints that nothing changed and exits with status 0 before any file is
analysed. -/
def getChangedFilesForCheck (targetDir : String)
    (repoRoot : Except String String) (gitDiff : Except String String) :
    ChangedFilesDecision :=
  match repoRoot with
  | Except.error _ => ChangedFilesDecision.fallbackAll
  | Except.ok root =>
    let files := getChangedFiles root targetDir gitDiff
    if files.isEmpty then ChangedFilesDecision.exitNoChanges
    else ChangedFilesDecision.useFiles files

/-! ## Association-list and fold lemmas -/

theorem alistGet?_set {β : Type} (l : List (String × β)) (k k2 : String) (v : β) :
    alistGet? (alistSet l k v) k2 = if k = k2 then some v else alistGet? l k2 := by
  induction l with
  | nil => simp [alistSet, alistGet?]
  | cons hd tl ih =>
    obtain ⟨a, b⟩ := hd
    by_cases hak : a = k
    · subst hak
      by_cases hk2 : a = k2 <;> simp [alistSet, alistGet?, hk2]
    · by_cases hk2 : a = k2
      · subst hk2
        have : ¬ k = a := fun h => hak h.symm
        simp [alistSet, alistGet?, hak, this]
      · simp [alistSet, alistGet?, hak, hk2, ih]

theorem alistGet?_update {β : Type} (l : List (String × β)) (k k2 : String) (f : β → β) :
    alistGet? (alistUpdate l k f) k2 =
      if k = k2 then (alistGet? l k).map f else alistGet? l k2 := by
  induction l with
  | nil => simp [alistUpdate, alistGet?]
  | cons hd tl ih =>
    obtain ⟨a, b⟩ := hd
    by_cases hak : a = k
    · subst hak
      by_cases hk2 : a = k2 <;> simp [alistUpdate, alistGet?, hk2]
    · by_cases hk2 : a = k2
      · subst hk2
        have : ¬ k = a := fun h => hak h.symm
        simp [alistUpdate, alistGet?, hak, this]
      · simp [alistUpdate, alistGet?, hak, hk2, ih]

theorem foldl_invariant {α σ : Type} (P : σ → Prop) (step : σ → α → σ)
    (l : List α) (acc : σ) (hstep : ∀ s a, P s → P (step s a)) (hacc : P acc) :
    P (l.foldl step acc) := by
  induction l generalizing acc with
  | nil => exact hacc
  | cons x xs ih => exact ih (step acc x) (hstep acc x hacc)


/-! ## Classifier lemmas and the single-use claims -/

theorem hasLegitimateReason_eq (d : TypeDefinition) :
    hasLegitimateReason d =
      (d.isExported || extendsOtherType d || strEndsWith d.name "Props") := by
  unfold hasLegitimateReason
  split_ifs <;> simp_all

/-- C1. A single-use-named violation is produced by findViolations only for a
type name whose usage list (fetched by exact name) is non-empty and whose set
of distinct non-empty function-name attributions has exactly one element; in
particular a type with zero usages, or with only unattributed usages (empty
distinct set), is never flagged. -/
theorem single_use_violation_requires_single_attribution
    (defs : List TypeDefinition) (umap : List (String × List TypeUsage))
    (v : Violation) (hv : v ∈ findViolations defs umap) :
    (alistGet? umap v.typeName).getD [] ≠ [] ∧
      (distinctTruthyNames ((alistGet? umap v.typeName).getD [])).length = 1 := by
  unfold findViolations at hv
  obtain ⟨d, hd, hval⟩ := List.mem_filterMap.mp hv
  simp only [violationForDefinition] at hval
  split at hval
  case isTrue hcond =>
    have hsingle : isSingleUseType d ((alistGet? umap d.name).getD []) = true := by
      cases hIs : isSingleUseType d ((alistGet? umap d.name).getD [])
      · rw [hIs] at hcond
        simp at hcond
      · rfl
    cases hval
    simp only [isSingleUseType] at hsingle
    split at hsingle
    case isTrue => exact absurd hsingle (by simp)
    case isFalse hne =>
      refine ⟨?_, by simpa using hsingle⟩
      simpa [List.isEmpty_iff] using hne
  case isFalse => exact absurd hval (by simp)

def c1Defs : List TypeDefinition :=
  [⟨"BadOptions", TypeDefKind.interface, "src/a.ts", 1, 1, false, none⟩,
   ⟨"Unused", TypeDefKind.interface, "src/a.ts", 8, 1, false, none⟩]

def c1Umap : List (String × List TypeUsage) :=
  [("BadOptions",
    [⟨"BadOptions", UsageContext.functionParam, some "configure", "src/a.ts", 5⟩])]

def c1Vio : Violation := ⟨"BadOptions", "src/a.ts", 1, 1, "configure"⟩

/-- Witness for C1 at a concrete run. -/
theorem single_use_violation_requires_single_attribution_witness :
    (alistGet? c1Umap c1Vio.typeName).getD [] ≠ [] ∧
      (distinctTruthyNames ((alistGet? c1Umap c1Vio.typeName).getD [])).length = 1 :=
  single_use_violation_requires_single_attribution c1Defs c1Umap c1Vio (by decide)

/-- C2. A definition that is exported, or is an interface with at least one
heritage clause, or whose name ends in Props, never yields a single-use-named
violation; and a type alias never satisfies the heritage exemption. -/
theorem exempt_definition_not_flagged
    (umap : List (String × List TypeUsage)) (d : TypeDefinition)
    (hex : d.isExported = true ∨
      (d.kind = TypeDefKind.interface ∧ ∃ n, d.heritageClauses = some n ∧ 0 < n) ∨
      strEndsWith d.name "Props" = true) :
    violationForDefinition umap d = none ∧
      ∀ d2 : TypeDefinition, d2.kind = TypeDefKind.type → extendsOtherType d2 = false := by
  constructor
  · have hleg : hasLegitimateReason d = true := by
      rw [hasLegitimateReason_eq]
      rcases hex with h | ⟨hk, n, hh, hn⟩ | h
      · simp [h]
      · have hext : extendsOtherType d = true := by
          unfold extendsOtherType
          rw [hk, hh]
          simpa using hn
        simp [hext]
      · simp [h]
    simp [violationForDefinition, hleg]
  · intro d2 h2
    unfold extendsOtherType
    rw [h2]

def c2Umap : List (String × List TypeUsage) :=
  [("PublicAPI",
    [⟨"PublicAPI", UsageContext.functionParam, some "usePublicAPI", "src/b.ts", 9⟩])]

def c2Def : TypeDefinition :=
  ⟨"PublicAPI", TypeDefKind.interface, "src/b.ts", 2, 1, true, none⟩

def c2Alias : TypeDefinition :=
  ⟨"Wrapped", TypeDefKind.type, "src/b.ts", 12, 1, false, some 1⟩

/-- Witness for C2: an exported single-use interface is not flagged, and a
type alias is never heritage-exempt. -/
theorem exempt_definition_not_flagged_witness :
    violationForDefinition c2Umap c2Def = none ∧ extendsOtherType c2Alias = false :=
  ⟨(exempt_definition_not_flagged c2Umap c2Def (Or.inl rfl)).1,
   (exempt_definition_not_flagged c2Umap c2Def (Or.inl rfl)).2 c2Alias rfl⟩

/-! ## Inline-object detector claims -/

/-- The tree of `function f<T extends (a: (b)) >(x: T)` where the constraint
is an object-type literal whose member `a` carries a nested non-empty
object-type literal. -/
def c3Tree : TsNode :=
  TsNode.sourceFile (TsNodeList.cons
    (TsNode.functionDecl (some "f")
      (TsNodeList.cons
        (TsNode.typeParameterDecl "T"
          (TsNodeOpt.some (TsNode.typeLiteral 1 20
            (TsNodeList.cons
              (TsNode.propertySignature (PropName.ident "a")
                (TsNodeOpt.some (TsNode.typeLiteral 1 25
                  (TsNodeList.cons
                    (TsNode.propertySignature (PropName.ident "b") TsNodeOpt.none)
                    TsNodeList.nil))))
              TsNodeList.nil))))
        TsNodeList.nil)
      (TsNodeList.cons
        (TsNode.parameter (BindingName.ident "x")
          (TsNodeOpt.some (TsNode.typeReference "T" TsNodeList.nil)))
        TsNodeList.nil)
      TsNodeOpt.none
      TsNodeList.nil)
    TsNodeList.nil)

/-- Counterexample for C3: on `c3Tree`, collectInlineObjectTypes yields no
violation at all, although the enumeration shows a second, nested literal
that is not itself the constraint (its immediate parent is the property `a`,
so getInlineTypeContext would label it) — the ancestor walk of
isGenericConstraint exempts it too, so it cannot produce its own violation,
contrary to the claim. -/
theorem nested_constraint_literal_not_flagged :
    collectInlineObjectTypes "g.ts" c3Tree = [] ∧
      (enumLits [] c3Tree).map
          (fun occ => (getInlineTypeContext occ.chain, isGenericConstraint occ.chain)) =
        [(Option.none, true),
         (Option.some ("property " ++ sQuote ++ "a" ++ sQuote), true)] := by
  exact ⟨by decide, by decide⟩

/-- C3 amended.  collectInlineObjectTypes is exactly the per-occurrence rule:
a literal whose ancestor chain passes through the constraint slot of a
type-parameter declaration — the constraint literal itself and every literal
nested inside it — produces no violation, while traversal still descends
into it; every other literal produces one violation exactly when its
immediate parent yields a known context. -/
theorem inline_types_constraint_exemption_characterised :
    ∀ (fname : String) (sf : TsNode),
      collectInlineObjectTypes fname sf = (enumLits [] sf).filterMap (citEmit fname) :=
  fun fname sf => citVisit_eq fname sf []

/-- The tree of `const x: () = getData()` with an empty object-type literal
annotation (the initialiser holds no type node). -/
def c4Tree : TsNode :=
  TsNode.sourceFile (TsNodeList.cons
    (TsNode.variableDeclaration (BindingName.ident "x")
      (TsNodeOpt.some (TsNode.typeLiteral 1 10 TsNodeList.nil))
      TsNodeOpt.none)
    TsNodeList.nil)

/-- C4 failing-input evaluation: the only literal of `c4Tree` has zero
members, yet collectInlineObjectTypes (the detector the parser re-exports
and the tests exercise) flags it as a variable-annotation violation, while
collectInlineObjectViolations honours the documented empty-literal
exemption on the same tree. -/
theorem empty_literal_flagged_by_collectInlineObjectTypes :
    collectInlineObjectTypes "test.ts" c4Tree =
        [⟨"test.ts", 1, 10, "variable " ++ sQuote ++ "x" ++ sQuote⟩] ∧
      collectInlineObjectViolations "test.ts" c4Tree = [] := by
  exact ⟨by decide, by decide⟩

/-- C5. collectInlineObjectViolations is exactly the per-occurrence rule:
every non-empty literal — nested ones included — yields exactly one violation
of its own, labelled by the nearest recognised ancestor; an immediate parent
matching no known context defers to the grandparent, and an exhausted
ancestor chain yields the fall-back label instead of dropping the
violation. -/
theorem inline_detector_per_literal_rule :
    ∀ (fname : String) (sf : TsNode),
      collectInlineObjectViolations fname sf = (enumLits [] sf).filterMap (detEmit fname) :=
  fun fname sf => detVisit_eq fname sf []

/-! ## Suppression-store lemmas -/

theorem isSuppressed_eq_get2 (v : Violation) (s : SuppressionFile) (td : String) :
    isSuppressed v s td = (suppGet2 s (pathRelative td v.filePath) v.typeName).isSome := by
  unfold isSuppressed suppGet2
  cases alistGet? s (pathRelative td v.filePath) <;> simp

theorem suppGet2_genStep (td : String) (acc : SuppressionFile) (v : Violation)
    (rel name : String) :
    suppGet2 (genStep td acc v) rel name =
      if pathRelative td v.filePath = rel ∧ v.typeName = name
      then some ⟨some autoReason⟩ else suppGet2 acc rel name := by
  unfold genStep suppGet2
  by_cases hrel : pathRelative td v.filePath = rel
  · subst hrel
    cases hc : alistGet? acc (pathRelative td v.filePath) with
    | none =>
      by_cases hname : v.typeName = name <;>
        simp [hc, alistGet?_update, alistGet?_set, hname, alistGet?]
    | some cur =>
      by_cases hname : v.typeName = name <;>
        simp [hc, alistGet?_update, alistGet?_set, hname]
  · cases hc : alistGet? acc (pathRelative td v.filePath) with
    | none => simp [hc, alistGet?_update, alistGet?_set, hrel]
    | some cur => simp [hc, alistGet?_update, hrel]

theorem generateSuppressionsForAll_contains (violations : List Violation)
    (td : String) (v : Violation) (hv : v ∈ violations) :
    suppGet2 (generateSuppressionsForAll violations td)
      (pathRelative td v.filePath) v.typeName = some ⟨some autoReason⟩ := by
  unfold generateSuppressionsForAll
  suffices h : ∀ (vs : List Violation) (acc : SuppressionFile),
      (v ∈ vs ∨
        suppGet2 acc (pathRelative td v.filePath) v.typeName = some ⟨some autoReason⟩) →
      suppGet2 (vs.foldl (genStep td) acc)
        (pathRelative td v.filePath) v.typeName = some ⟨some autoReason⟩ by
    exact h violations [] (Or.inl hv)
  intro vs
  induction vs with
  | nil =>
    intro acc h
    rcases h with h | h
    · exact absurd h (List.not_mem_nil v)
    · simpa using h
  | cons x xs ih =>
    intro acc h
    simp only [List.foldl_cons]
    apply ih
    rcases h with h | h
    · rcases List.mem_cons.mp h with rfl | hxs
      · right
        rw [suppGet2_genStep]
        simp
      · left
        exact hxs
    · right
      rw [suppGet2_genStep]
      split
      · rfl
      · exact h

theorem alistGet?_mergeInnerFold (news : FileSuppressions) (cur : FileSuppressions)
    (k : String) :
    alistGet? (news.foldl mergeInnerStep cur) k =
      match alistGet? cur k with
      | some e => some e
      | none => alistGet? news k := by
  induction news generalizing cur with
  | nil =>
    cases hck : alistGet? cur k <;> simp [alistGet?, hck]
  | cons hd t ih =>
    obtain ⟨k1, e1⟩ := hd
    simp only [List.foldl_cons]
    rw [ih]
    cases hcurk1 : alistGet? cur k1 with
    | some e =>
      have hstep : mergeInnerStep cur (k1, e1) = cur := by
        simp [mergeInnerStep, hcurk1]
      rw [hstep]
      by_cases hk : k1 = k
      · subst hk
        simp [alistGet?, hcurk1]
      · cases hck : alistGet? cur k <;> simp [alistGet?, hk, hck]
    | none =>
      have hstep : mergeInnerStep cur (k1, e1) = alistSet cur k1 e1 := by
        simp [mergeInnerStep, hcurk1]
      rw [hstep]
      by_cases hk : k1 = k
      · subst hk
        simp [alistGet?_set, hcurk1, alistGet?]
      · cases hck : alistGet? cur k <;> simp [alistGet?_set, alistGet?, hk, hck]

theorem suppGet2_mergeFileStep (acc : SuppressionFile) (fv : String × FileSuppressions)
    (fp k : String) :
    suppGet2 (mergeFileStep acc fv) fp k =
      if fv.1 = fp then
        match suppGet2 acc fp k with
        | some e => some e
        | none => alistGet? fv.2 k
      else suppGet2 acc fp k := by
  obtain ⟨fp1, inner1⟩ := fv
  unfold mergeFileStep suppGet2
  by_cases hfp : fp1 = fp
  · subst hfp
    cases hc : alistGet? acc fp1 with
    | none =>
      simp [hc, alistGet?_update, alistGet?_set, alistGet?_mergeInnerFold, alistGet?]
    | some cur =>
      simp [hc, alistGet?_update, alistGet?_mergeInnerFold]
  · cases hc : alistGet? acc fp1 with
    | none => simp [hc, alistGet?_update, alistGet?_set, hfp]
    | some cur => simp [hc, alistGet?_update, hfp]

theorem merge_preserves_existing (existing news : SuppressionFile)
    (fp k : String) (e : SuppressionEntry)
    (h : suppGet2 existing fp k = some e) :
    suppGet2 (mergeSuppressions existing news) fp k = some e := by
  unfold mergeSuppressions
  refine foldl_invariant (fun s => suppGet2 s fp k = some e) mergeFileStep news existing
    (fun s a hs => ?_) h
  show suppGet2 (mergeFileStep s a) fp k = some e
  rw [suppGet2_mergeFileStep]
  split
  · rw [hs]
  · exact hs

theorem merge_adds_new (news : SuppressionFile) (existing : SuppressionFile)
    (fp k : String) (h : (suppGet2 news fp k).isSome = true) :
    (suppGet2 (mergeSuppressions existing news) fp k).isSome = true := by
  induction news generalizing existing with
  | nil =>
    simp [suppGet2, alistGet?] at h
  | cons hd t ih =>
    obtain ⟨fp1, inner1⟩ := hd
    simp only [mergeSuppressions, List.foldl_cons] at *
    by_cases hfp : fp1 = fp
    · subst hfp
      have hinner : (alistGet? inner1 k).isSome = true := by
        simpa [suppGet2, alistGet?] using h
      have hE : (suppGet2 (mergeFileStep existing (fp1, inner1)) fp1 k).isSome = true := by
        rw [suppGet2_mergeFileStep]
        simp only [if_pos rfl]
        cases hex : suppGet2 existing fp1 k <;> simp [hex, hinner]
      obtain ⟨e, he⟩ := Option.isSome_iff_exists.mp hE
      have := merge_preserves_existing (mergeFileStep existing (fp1, inner1)) t fp1 k e he
      unfold mergeSuppressions at this
      simp [this]
    · have ht : (suppGet2 t fp k).isSome = true := by
        simpa [suppGet2, alistGet?, hfp] using h
      exact ih (mergeFileStep existing (fp1, inner1)) ht

/-! ## Persistence round-trip lemmas -/

theorem entry_roundtrip (e : SuppressionEntry) : entryOfJson (entryToJson e) = e := by
  obtain ⟨reason⟩ := e
  cases reason <;> rfl

theorem fileSup_roundtrip (f : FileSuppressions) :
    fileSupOfJson (fileSupToJson f) = f := by
  have hfun : ((fun kv : String × JsonValue => (kv.1, entryOfJson kv.2)) ∘
      fun kv : String × SuppressionEntry => (kv.1, entryToJson kv.2)) = id := by
    funext kv
    simp [entry_roundtrip]
  simp [fileSupToJson, fileSupOfJson, List.map_map, hfun]

theorem supp_roundtrip (s : SuppressionFile) : suppOfJson (suppToJson s) = s := by
  have hfun : ((fun kv : String × JsonValue => (kv.1, fileSupOfJson kv.2)) ∘
      fun kv : String × FileSuppressions => (kv.1, fileSupToJson kv.2)) = id := by
    funext kv
    simp [fileSup_roundtrip]
  simp [suppToJson, suppOfJson, List.map_map, hfun]

theorem load_after_save (sp : String) (s : SuppressionFile) :
    loadSuppressions sp (fun p => if p = sp then some (saveSuppressions s) else none) =
      Except.ok s := by
  simp [loadSuppressions, saveSuppressions, jsonParse, supp_roundtrip]

/-! ## Suppression claims -/

/-- C6. Generating suppressions for a violation list, merging them into a
pre-existing map, saving and loading yields exactly the merged map; under it
every violation of the input list is classified suppressed, and every entry
of the pre-existing map is still present unchanged. -/
theorem suppression_round_trip
    (violations : List Violation) (existing : SuppressionFile)
    (targetDir sp : String) (v : Violation) (hv : v ∈ violations)
    (fp k : String) (e : SuppressionEntry)
    (he : suppGet2 existing fp k = some e) :
    loadSuppressions sp (fun p => if p = sp then
        some (saveSuppressions (mergeSuppressions existing
          (generateSuppressionsForAll violations targetDir))) else none) =
      Except.ok (mergeSuppressions existing
        (generateSuppressionsForAll violations targetDir)) ∧
    isSuppressed v (mergeSuppressions existing
      (generateSuppressionsForAll violations targetDir)) targetDir = true ∧
    suppGet2 (mergeSuppressions existing
      (generateSuppressionsForAll violations targetDir)) fp k = some e := by
  refine ⟨load_after_save sp _, ?_, merge_preserves_existing existing _ fp k e he⟩
  rw [isSuppressed_eq_get2]
  apply merge_adds_new
  rw [generateSuppressionsForAll_contains violations targetDir v hv]
  rfl

def c6Vio : Violation := ⟨"BadOptions", "/proj/src/a.ts", 3, 4, "configure"⟩

def c6Existing : SuppressionFile := [("src/old.ts", [("OldType", ⟨some "kept"⟩)])]

/-- Witness for C6 at a concrete run. -/
theorem suppression_round_trip_witness :
    loadSuppressions "/proj/junk.json" (fun p => if p = "/proj/junk.json" then
        some (saveSuppressions (mergeSuppressions c6Existing
          (generateSuppressionsForAll [c6Vio] "/proj"))) else none) =
      Except.ok (mergeSuppressions c6Existing
        (generateSuppressionsForAll [c6Vio] "/proj")) ∧
    isSuppressed c6Vio (mergeSuppressions c6Existing
      (generateSuppressionsForAll [c6Vio] "/proj")) "/proj" = true ∧
    suppGet2 (mergeSuppressions c6Existing
      (generateSuppressionsForAll [c6Vio] "/proj")) "src/old.ts" "OldType" =
      some ⟨some "kept"⟩ :=
  suppression_round_trip [c6Vio] c6Existing "/proj" "/proj/junk.json" c6Vio
    (by decide) "src/old.ts" "OldType" ⟨some "kept"⟩ (by decide)

def c7Vio : InlineTypeViolation := ⟨"/proj/src/a.ts", 3, 5, "function parameter"⟩

def c7BareKeyed : SuppressionFile := [("src/a.ts", [("3:5", ⟨some "r"⟩)])]

/-- Counterexample for C7: a suppression entry stored under the bare
line:column key does not suppress the inline violation at that location, and
the write path emits the inline-prefixed key, not the bare one. -/
theorem inline_key_not_bare_line_column :
    isInlineSuppressed c7Vio c7BareKeyed "/proj" = false ∧
      generateInlineSuppressions [c7Vio] "/proj" =
        [("src/a.ts", [("inline:3:5", ⟨some "function parameter"⟩)])] := by
  exact ⟨by decide, by decide⟩

/-- C7 amended.  On both the write path and the read path the lookup-key is
the bare type name for a single-use-named violation and the prefixed string
inline:line:column for an inline-object violation. -/
theorem suppression_lookup_keys
    (iv : InlineTypeViolation) (nv : Violation) (targetDir : String)
    (s : SuppressionFile) :
    generateInlineSuppressions [iv] targetDir =
      [(pathRelative targetDir iv.filePath,
        [("inline:" ++ toString iv.line ++ ":" ++ toString iv.column,
          ⟨some iv.context⟩)])] ∧
    isInlineSuppressed iv s targetDir =
      (suppGet2 s (pathRelative targetDir iv.filePath)
        ("inline:" ++ toString iv.line ++ ":" ++ toString iv.column)).isSome ∧
    generateSuppressionsForAll [nv] targetDir =
      [(pathRelative targetDir nv.filePath, [(nv.typeName, ⟨some autoReason⟩)])] ∧
    isSuppressed nv s targetDir =
      (suppGet2 s (pathRelative targetDir nv.filePath) nv.typeName).isSome := by
  refine ⟨?_, ?_, ?_, isSuppressed_eq_get2 nv s targetDir⟩
  · simp [generateInlineSuppressions, genInlineStep, alistGet?, alistUpdate, alistSet]
  · unfold isInlineSuppressed suppGet2
    cases h : alistGet? s (pathRelative targetDir iv.filePath) <;> simp [h]
  · simp [generateSuppressionsForAll, genStep, alistGet?, alistUpdate, alistSet]

/-- C9. loadSuppressions returns the empty mapping without error when the
file does not exist, and fails with an error naming the offending path when
the file exists but holds malformed content. -/
theorem loadSuppressions_missing_and_malformed (sp raw : String) :
    loadSuppressions sp (fun _ => none) = Except.ok [] ∧
      loadSuppressions sp
          (fun p => if p = sp then some (FileContent.malformed raw) else none) =
        Except.error ("Failed to load suppressions from " ++ sp ++ ": " ++
          ("Unexpected token in JSON: " ++ raw)) := by
  constructor
  · rfl
  · simp [loadSuppressions, jsonParse]

/-- C10. isSuppressed reads only the violation file path (relativised) and
type name; line and column never enter the lookup. -/
theorem isSuppressed_ignores_location (s : SuppressionFile) (targetDir : String)
    (v1 v2 : Violation) (hf : v1.filePath = v2.filePath)
    (hn : v1.typeName = v2.typeName) :
    isSuppressed v1 s targetDir = isSuppressed v2 s targetDir := by
  unfold isSuppressed
  rw [hf, hn]

def c10Sup : SuppressionFile := [("src/a.ts", [("Conf", ⟨none⟩)])]

def c10V1 : Violation := ⟨"Conf", "/proj/src/a.ts", 1, 2, "f"⟩

def c10V2 : Violation := ⟨"Conf", "/proj/src/a.ts", 40, 7, "g"⟩

/-- Witness for C10: two violations for the same type in the same file at
different locations are classified alike. -/
theorem isSuppressed_ignores_location_witness :
    c10V1.filePath = c10V2.filePath ∧
      isSuppressed c10V1 c10Sup "/proj" = isSuppressed c10V2 c10Sup "/proj" :=
  ⟨rfl, isSuppressed_ignores_location c10Sup "/proj" c10V1 c10V2 rfl rfl⟩

/-! ## Changed-files claim -/

/-- C8 failing-input evaluation: when the repository root is found but the
baseline diff fails (for example no origin/main revision), getChangedFiles
swallows the error into an empty list and getChangedFilesForCheck exits with
status 0 before analysing anything — zero files are analysed and no fallback
to the full file set happens; only a findRepoRoot failure takes the
fall-back branch. -/
theorem changed_only_failure_exits_without_analysis :
    getChangedFilesForCheck "/repo/app" (Except.ok "/repo")
        (Except.error "fatal: ambiguous argument origin/main...HEAD") =
      ChangedFilesDecision.exitNoChanges ∧
    getChangedFilesForCheck "/repo/app" (Except.ok "/repo")
        (Except.error "fatal: ambiguous argument origin/main...HEAD") ≠
      ChangedFilesDecision.fallbackAll ∧
    getChangedFilesForCheck "/repo/app" (Except.error "Not in a git repository")
        (Except.ok "") = ChangedFilesDecision.fallbackAll := by
  exact ⟨by decide, by decide, by decide⟩
